import Mathlib

/-!
Verification development for the checkpoint conversion pipeline in
scripts/convert.py of sd-webui-model-converter.

The embedding models the weight mapping as an association list from keys to
values, a value being either a tensor (dtype plus an abstract list of element
values) or a non-tensor payload.  Python string operations used by the source
(slicing, replace, substring test, startswith, endswith) are reimplemented as
structurally recursive functions over character lists so that every closed
computation evaluates inside the kernel.
-/

namespace ModelConverter

/-- Tensor element dtypes that the source distinguishes. -/
inductive DType where
  | float32
  | float64
  | float16
  | bfloat16
  | int64
  | int32
  | other
deriving DecidableEq

/-- A tensor: an element dtype together with its element values.  Numeric
rounding performed by a precision cast is not modelled; only the dtype
transition is, which is all the claims speak about. -/
structure Tensor where
  dtype : DType
  data : List Int
deriving DecidableEq

/-- A value stored in a weight mapping: a tensor or a non-tensor payload. -/
inductive Value where
  | tensor (t : Tensor)
  | nonTensor (n : Nat)
deriving DecidableEq

/-! ## Python string operations -/

/-- Python slicing s[n:]. -/
def pySlice (s : String) (n : Nat) : String := ⟨s.toList.drop n⟩

/-- Fuel-driven worker for str.replace: replaces non-overlapping occurrences
of pat left to right.  Fuel at least the length of the text suffices for a
nonempty pattern. -/
def replaceFuel (pat rep : List Char) : Nat → List Char → List Char
  | 0, s => s
  | _ + 1, [] => []
  | fuel + 1, c :: rest =>
    if pat.isPrefixOf (c :: rest) then
      rep ++ replaceFuel pat rep fuel ((c :: rest).drop pat.length)
    else
      c :: replaceFuel pat rep fuel rest

/-- Python str.replace(pat, rep) for a nonempty pattern. -/
def pyReplace (s pat rep : String) : String :=
  ⟨replaceFuel pat.toList rep.toList (s.toList.length + 1) s.toList⟩

/-- Worker for the Python substring test. -/
def subAt : List Char → List Char → Bool
  | pat, [] => pat.isEmpty
  | pat, c :: rest => pat.isPrefixOf (c :: rest) || subAt pat rest

/-- Python pat in s (substring containment). -/
def pyContains (s pat : String) : Bool := subAt pat.toList s.toList

/-- Python s.startswith(pre). -/
def pyStartsWith (s pre : String) : Bool := pre.toList.isPrefixOf s.toList

/-- Python s.endswith(suf). -/
def pyEndsWith (s suf : String) : Bool := suf.toList.isSuffixOf s.toList

/-! ## Dictionaries as association lists

Python dict operations used by the source: lookup, membership, item
assignment (update in place if present, else append, preserving insertion
order) and deletion. -/

section Dict

variable {κ : Type} {α : Type} [DecidableEq κ]

/-- Dictionary lookup d[k] (first binding wins; keys are unique in a dict). -/
def lookup : List (κ × α) → κ → Option α
  | [], _ => none
  | (k', v) :: rest, k => if k' = k then some v else lookup rest k

/-- Python k in d. -/
def containsKey : List (κ × α) → κ → Bool
  | [], _ => false
  | (k', _) :: rest, k => if k' = k then true else containsKey rest k

/-- Python d[k] = v: overwrite the binding in place when the key is present
(dict keys are unique, so the first binding is the binding), else append. -/
def setKey : List (κ × α) → κ → α → List (κ × α)
  | [], k, v => [(k, v)]
  | (k', w) :: rest, k, v =>
    if k' = k then (k, v) :: rest else (k', w) :: setKey rest k v

/-- Python del d[k]: removes the binding of k. -/
def delKey : List (κ × α) → κ → List (κ × α)
  | [], _ => []
  | (k', w) :: rest, k => if k' = k then rest else (k', w) :: delKey rest k

/-- The key list of a dictionary, in insertion order. -/
def keysOf (m : List (κ × α)) : List κ := m.map Prod.fst

end Dict

/-- A weight mapping: string keys to values. -/
abbrev AList := List (String × Value)

/-! ## Precision cast tables and cast functions (convert.py lines 12 to 33) -/

/-- Source set dtypes_to_fp16 = \x7btorch.float32, torch.float64, torch.bfloat16\x7d. -/
def dtypes_to_fp16 : List DType := [.float32, .float64, .bfloat16]

/-- Source set dtypes_to_bf16 = \x7btorch.float32, torch.float64, torch.float16\x7d. -/
def dtypes_to_bf16 : List DType := [.float32, .float64, .float16]

/-- torch t.half(): result dtype is float16 (element rounding abstracted). -/
def Tensor.half (t : Tensor) : Tensor := { t with dtype := .float16 }

/-- torch t.bfloat16(): result dtype is bfloat16 (element rounding abstracted). -/
def Tensor.toBF16 (t : Tensor) : Tensor := { t with dtype := .bfloat16 }

/-- torch t.to(torch.int64): result dtype is int64, element values kept. -/
def Tensor.toInt64 (t : Tensor) : Tensor := { t with dtype := .int64 }

/-- Source conv_fp16. -/
def conv_fp16 (t : Tensor) : Tensor :=
  if t.dtype ∈ dtypes_to_fp16 then t.half else t

/-- Source conv_bf16. -/
def conv_bf16 (t : Tensor) : Tensor :=
  if t.dtype ∈ dtypes_to_bf16 then t.toBF16 else t

/-- Source conv_full. -/
def conv_full (t : Tensor) : Tensor := t

/-- Source table _g_precision_func; none models the KeyError branch for an
unknown precision string. -/
def g_precision_func : String → Option (Tensor → Tensor)
  | "full" => some conv_full
  | "fp32" => some conv_full
  | "fp16" => some conv_fp16
  | "bf16" => some conv_bf16
  | _ => none

/-! ## Subsystem classification (convert.py lines 40 to 47) -/

/-- Source check_weight_type. -/
def check_weight_type (k : String) : String :=
  if pyStartsWith k "model.diffusion_model" then "unet"
  else if pyStartsWith k "first_stage_model" then "vae"
  else if pyStartsWith k "cond_stage_model" then "clip"
  else "other"

/-- The extra_opt dict built in do_convert: one directive per subsystem. -/
structure ExtraOpt where
  unet : String
  clip : String
  vae : String
  other : String
deriving DecidableEq

/-- Lookup extra_opt[weight_type] for the four possible classification
results. -/
def ExtraOpt.get (o : ExtraOpt) (wt : String) : String :=
  if wt = "unet" then o.unet
  else if wt = "clip" then o.clip
  else if wt = "vae" then o.vae
  else o.other

/-- The all-copy configuration used by several spec scenarios. -/
def copyAll : ExtraOpt := ⟨"copy", "copy", "copy", "copy"⟩

/-! ## The per-key handler _hf (convert.py lines 192 to 202)

_hf either writes one binding ok[wk] or writes nothing.  hfResult computes
the written value (none when nothing is written: non-tensor value, delete
directive, or unknown directive string), hfStep performs the write. -/

/-- What _hf stores for key wk with value v: none models the early return for
a non-tensor value and the delete (or unrecognized) directive. -/
def hfResult (opts : ExtraOpt) (conv : Tensor → Tensor) (wk : String) (v : Value) :
    Option Value :=
  match v with
  | .nonTensor _ => none
  | .tensor t =>
    let ct := opts.get (check_weight_type wk)
    if ct = "convert" then some (.tensor (conv t))
    else if ct = "copy" then some (.tensor t)
    else none

/-- One _hf call applied to the output dict ok. -/
def hfStep (opts : ExtraOpt) (conv : Tensor → Tensor) (ok : AList) (wk : String)
    (v : Value) : AList :=
  match hfResult opts conv wk v with
  | some w => setKey ok wk w
  | none => ok

/-! ## EMA shadow keys and the selector loop (convert.py lines 206 to 227) -/

/-- The shadow name computed in the ema-only branch:
"model_ema." + k[6:].replace(".", ""). -/
def ema_shadow_key (k : String) : String :=
  "model_ema." ++ pyReplace (pySlice k 6) "." ""

/-- What the ema-only branch stores for key k: the shadow value when the
shadow key exists, else the own value when k is not an EMA key or is one of
the two retained bookkeeping keys. -/
def emaKeyResult (sd : AList) (opts : ExtraOpt) (conv : Tensor → Tensor)
    (k : String) : Option Value :=
  match lookup sd (ema_shadow_key k) with
  | some v => hfResult opts conv k v
  | none =>
    if !pyStartsWith k "model_ema." || k = "model_ema.num_updates"
        || k = "model_ema.decay" then
      match lookup sd k with
      | some v => hfResult opts conv k v
      | none => none
    else none

/-- One iteration of the ema-only loop. -/
def emaFoldStep (sd : AList) (opts : ExtraOpt) (conv : Tensor → Tensor)
    (ok : AList) (k : String) : AList :=
  match emaKeyResult sd opts conv k with
  | some v => setKey ok k v
  | none => ok

/-- One iteration of the no-ema loop: keys containing "model_ema." are
skipped, every other item goes through _hf. -/
def noEmaFoldStep (opts : ExtraOpt) (conv : Tensor → Tensor) (ok : AList)
    (kv : String × Value) : AList :=
  if pyContains kv.1 "model_ema." then ok else hfStep opts conv ok kv.1 kv.2

/-- The selector loop of do_convert: builds the output dict ok from the
(repaired) state_dict, given the pruning mode, the resolved precision cast
function and the per-subsystem directives. -/
def do_convert_core (conv_type : String) (opts : ExtraOpt)
    (conv : Tensor → Tensor) (sd : AList) : AList :=
  if conv_type = "ema-only" then
    (keysOf sd).foldl (emaFoldStep sd opts conv) []
  else if conv_type = "no-ema" then
    sd.foldl (noEmaFoldStep opts conv) []
  else
    sd.foldl (fun ok kv => hfStep opts conv ok kv.1 kv.2) []

/-- do_convert with the precision string still unresolved: none models the
KeyError raised by _g_precision_func on an unknown precision. -/
def do_convert_sel (precision conv_type : String) (opts : ExtraOpt)
    (sd : AList) : Option AList :=
  (g_precision_func precision).map (fun conv => do_convert_core conv_type opts conv sd)

/-! ## The repairer fix_model (convert.py lines 128 to 161) -/

/-- Source table nai_keys: broken key spellings to their corrections. -/
def nai_keys : List (String × String) :=
  [("cond_stage_model.transformer.embeddings.",
    "cond_stage_model.transformer.text_model.embeddings."),
   ("cond_stage_model.transformer.encoder.",
    "cond_stage_model.transformer.text_model.encoder."),
   ("cond_stage_model.transformer.final_layer_norm.",
    "cond_stage_model.transformer.text_model.final_layer_norm.")]

/-- The first nai_keys rule whose broken spelling starts key k (the inner
loop with break). -/
def naiFind (k : String) : Option (String × String) :=
  nai_keys.find? (fun r => pyStartsWith k r.1)

/-- The corrected name of key k, when some rule applies. -/
def renameNai (k : String) : Option String :=
  (naiFind k).map (fun r => pyReplace k r.1 r.2)

/-- One iteration of the rename loop: when a rule applies, store the value
under the corrected name and delete the old key. -/
def fixNaiStep (m : AList) (k : String) : AList :=
  match lookup m k with
  | none => m
  | some v =>
    match naiFind k with
    | some r => delKey (setKey m (pyReplace k r.1 r.2) v) k
    | none => m

/-- The rename loop of fix_model: iterates over a snapshot of the key list
while mutating the dict. -/
def fixNaiKeys (m : AList) : AList := (keysOf m).foldl fixNaiStep m

/-- The position id key targeted by the clip repairs. -/
def position_id_key : String :=
  "cond_stage_model.transformer.text_model.embeddings.position_ids"

/-- The canonical position id tensor torch.Tensor([list(range(77))]).to(torch.int64). -/
def correct_position_ids : Tensor := ⟨.int64, (List.range 77).map Int.ofNat⟩

/-- The broken index list of the fix-clip check: positions below 77 where the
int64-cast stored values differ from the canonical sequence. -/
def brokenIndices (d : List Int) : List Nat :=
  (List.range 77).filter (fun i => decide (d.getD i 0 ≠ (i : Int)))

/-- Source fix_model.  The second component reports the fix-clip outcome:
none when the flag is off or the key is absent, some [] for the no-op
message, some l for the fixed-indices message.  The non-tensor arms of the
two flag-gated stages are unreachable for the checkpoints the claims are
about; in the source they would raise before producing a mapping. -/
def fix_model (model : AList) (fix_clip force_position_id : Bool) :
    AList × Option (List Nat) :=
  let m1 := fixNaiKeys model
  let m2 :=
    if force_position_id then
      match lookup m1 position_id_key with
      | some (Value.tensor t) => setKey m1 position_id_key (.tensor t.toInt64)
      | _ => m1
    else m1
  if fix_clip then
    match lookup m2 position_id_key with
    | some (Value.tensor t) =>
      let broken := brokenIndices t.toInt64.data
      if broken ≠ [] then
        (setKey m2 position_id_key (.tensor correct_position_ids), some broken)
      else (m2, some [])
    | _ => (m2, none)
  else (m2, none)

/-! ## The loader load_model (convert.py lines 119 to 125) -/

/-- A value inside a parsed top-level checkpoint object: a leaf (tensor or
other payload) or an inner dictionary of weight values. -/
inductive PyVal where
  | base (v : Value)
  | dictV (m : AList)
deriving DecidableEq

/-- What load_model returns: either the value stored under "state_dict" or
the whole parsed mapping. -/
inductive LoadResult where
  | entry (v : PyVal)
  | whole (m : List (String × PyVal))
deriving DecidableEq

/-- Source load_model.  The two parser results (safetensors and torch) are
supplied as the already-parsed mappings; the extension test selects between
them, after which the state_dict extraction runs on either branch. -/
def load_model (path : String) (parsedSafetensors parsedTorch : List (String × PyVal)) :
    LoadResult :=
  let m := if pyEndsWith path ".safetensors" then parsedSafetensors else parsedTorch
  match lookup m "state_dict" with
  | some v => .entry v
  | none => .whole m

/-! ## Dynamically typed keys in the ema-only loop

torch.load can return a dict whose keys are not all strings.  Slicing such a
key raises inside the try block of the ema-only loop and the bare except
replaces the shadow name by the sentinel; the subsequent k.startswith call is
outside the try block and raises for a non-string key.  This model makes the
exception flow explicit. -/

/-- A dict key as Python sees it: a string, or a malformed non-string key
(modelled as an integer, the typical accident). -/
inductive PyKey where
  | str (s : String)
  | intKey (n : Int)
deriving DecidableEq

/-- The exceptions the ema-only loop can raise. -/
inductive PyErr where
  | typeError
  | attributeError
deriving DecidableEq

/-- _hf with a possibly non-string key: the isinstance test runs first, so a
non-tensor value returns before the key is touched; for a tensor value,
check_weight_type calls wk.startswith, which raises AttributeError on a
non-string key. -/
def hfP (opts : ExtraOpt) (conv : Tensor → Tensor) (ok : List (PyKey × Value))
    (wk : PyKey) (v : Value) : Except PyErr (List (PyKey × Value)) :=
  match v with
  | .nonTensor _ => .ok ok
  | .tensor t =>
    match wk with
    | .intKey _ => .error .attributeError
    | .str s =>
      let ct := opts.get (check_weight_type s)
      .ok (if ct = "convert" then setKey ok wk (.tensor (conv t))
           else if ct = "copy" then setKey ok wk (.tensor t)
           else ok)

/-- One iteration of the ema-only loop over possibly non-string keys.  The
try block yields the sentinel "___" when slicing fails on a non-string key;
the elif condition calls k.startswith outside any try block and raises
AttributeError for a non-string key. -/
def emaStepP (sd : List (PyKey × Value)) (opts : ExtraOpt)
    (conv : Tensor → Tensor) (ok : List (PyKey × Value)) (k : PyKey) :
    Except PyErr (List (PyKey × Value)) :=
  let ema_k : String :=
    match k with
    | .str s => ema_shadow_key s
    | .intKey _ => "___"
  if containsKey sd (PyKey.str ema_k) then
    match lookup sd (PyKey.str ema_k) with
    | some v => hfP opts conv ok k v
    | none => .ok ok
  else
    match k with
    | .intKey _ => .error .attributeError
    | .str s =>
      if !pyStartsWith s "model_ema." || s = "model_ema.num_updates"
          || s = "model_ema.decay" then
        match lookup sd k with
        | some v => hfP opts conv ok k v
        | none => .ok ok
      else .ok ok

/-- The ema-only loop over a dict with possibly non-string keys: the first
raised exception aborts the run. -/
def emaOnlyRunP (opts : ExtraOpt) (conv : Tensor → Tensor)
    (sd : List (PyKey × Value)) : Except PyErr (List (PyKey × Value)) :=
  (keysOf sd).foldlM (emaStepP sd opts conv) []

/-! ## Dictionary lemmas -/

section DictLemmas

variable {κ : Type} {α : Type} [DecidableEq κ]

theorem lookup_append (m l : List (κ × α)) (k : κ) :
    lookup (m ++ l) k =
      match lookup m k with
      | some w => some w
      | none => lookup l k := by
  induction m with
  | nil => simp [lookup]
  | cons p rest ih =>
    obtain ⟨k', v⟩ := p
    by_cases h : k' = k <;> simp [lookup, h, ih]

theorem containsKey_eq_false_iff (m : List (κ × α)) (k : κ) :
    containsKey m k = false ↔ lookup m k = none := by
  induction m with
  | nil => simp [containsKey, lookup]
  | cons p rest ih =>
    obtain ⟨k', v⟩ := p
    by_cases h : k' = k <;> simp [containsKey, lookup, h, ih]

theorem containsKey_eq_true_iff (m : List (κ × α)) (k : κ) :
    containsKey m k = true ↔ (lookup m k).isSome := by
  induction m with
  | nil => simp [containsKey, lookup]
  | cons p rest ih =>
    obtain ⟨k', v⟩ := p
    by_cases h : k' = k <;> simp [containsKey, lookup, h, ih]

theorem mem_keysOf_iff (m : List (κ × α)) (k : κ) :
    k ∈ keysOf m ↔ containsKey m k = true := by
  induction m with
  | nil => simp [keysOf, containsKey]
  | cons p rest ih =>
    obtain ⟨k', v⟩ := p
    simp only [keysOf, List.map_cons, List.mem_cons]
    by_cases h : k' = k
    · subst h
      simp [containsKey]
    · have h' : ¬k = k' := fun hh => h hh.symm
      simp only [containsKey, if_neg h, h', false_or]
      simpa [keysOf] using ih

theorem lookup_eq_none_of_not_mem_keys (m : List (κ × α)) (k : κ)
    (h : k ∉ keysOf m) : lookup m k = none := by
  rw [← containsKey_eq_false_iff]
  rcases hc : containsKey m k with _ | _
  · rfl
  · exact absurd ((mem_keysOf_iff m k).mpr hc) h

theorem lookup_setKey (m : List (κ × α)) (k j : κ) (v : α) :
    lookup (setKey m k v) j = if j = k then some v else lookup m j := by
  induction m with
  | nil =>
    by_cases hj : j = k
    · subst hj
      simp [setKey, lookup]
    · simp [setKey, lookup, hj, Ne.symm hj]
  | cons p rest ih =>
    obtain ⟨k', w⟩ := p
    by_cases hk : k' = k
    · subst hk
      by_cases hj : j = k'
      · subst hj
        simp [setKey, lookup]
      · simp [setKey, lookup, hj, Ne.symm hj]
    · by_cases hj : k' = j
      · subst hj
        simp [setKey, lookup, hk, Ne.symm hk]
      · simp [setKey, lookup, hk, hj, ih]

theorem lookup_delKey (m : List (κ × α)) (k j : κ)
    (hnd : (keysOf m).Nodup) :
    lookup (delKey m k) j = if j = k then none else lookup m j := by
  induction m with
  | nil => simp [delKey, lookup]
  | cons p rest ih =>
    obtain ⟨k', v⟩ := p
    simp only [keysOf, List.map_cons, List.nodup_cons] at hnd
    have ih' := ih hnd.2
    by_cases hk : k' = k
    · subst hk
      by_cases hj : j = k'
      · subst hj
        simp [delKey, lookup_eq_none_of_not_mem_keys rest j hnd.1]
      · simp only [delKey, if_pos rfl]
        rw [if_neg hj]
        simp [lookup, Ne.symm hj]
    · by_cases hj : k' = j
      · subst hj
        have hjk : ¬k' = k := hk
        simp [delKey, lookup, hk, hjk]
      · simp only [delKey, if_neg hk, lookup, if_neg hj]
        exact ih'

theorem containsKey_setKey (m : List (κ × α)) (k j : κ) (v : α) :
    containsKey (setKey m k v) j = if j = k then true else containsKey m j := by
  by_cases hj : j = k
  · subst hj
    simp [containsKey_eq_true_iff, lookup_setKey]
  · rcases h : containsKey m j with _ | _
    · simp only [hj, if_false]
      rw [containsKey_eq_false_iff] at h ⊢
      simp [lookup_setKey, hj, h]
    · simp only [hj, if_false]
      rw [containsKey_eq_true_iff] at h ⊢
      simpa [lookup_setKey, hj] using h

theorem containsKey_delKey (m : List (κ × α)) (k j : κ)
    (hnd : (keysOf m).Nodup) :
    containsKey (delKey m k) j = if j = k then false else containsKey m j := by
  by_cases hj : j = k
  · subst hj
    simp [containsKey_eq_false_iff, lookup_delKey _ _ _ hnd]
  · rcases h : containsKey m j with _ | _
    · simp only [hj, if_false]
      rw [containsKey_eq_false_iff] at h ⊢
      simp [lookup_delKey _ _ _ hnd, hj, h]
    · simp only [hj, if_false]
      rw [containsKey_eq_true_iff] at h ⊢
      simpa [lookup_delKey _ _ _ hnd, hj] using h

theorem length_setKey_fresh (m : List (κ × α)) (k : κ) (v : α)
    (h : containsKey m k = false) : (setKey m k v).length = m.length + 1 := by
  induction m with
  | nil => simp [setKey]
  | cons p rest ih =>
    obtain ⟨k', w⟩ := p
    by_cases hk : k' = k
    · simp [containsKey, hk] at h
    · simp only [containsKey, if_neg hk] at h
      simp [setKey, hk, ih h]

theorem length_delKey_contains (m : List (κ × α)) (k : κ)
    (h : containsKey m k = true) : (delKey m k).length + 1 = m.length := by
  induction m with
  | nil => simp [containsKey] at h
  | cons p rest ih =>
    obtain ⟨k', v⟩ := p
    by_cases hk : k' = k
    · simp [delKey, hk]
    · simp only [containsKey, if_neg hk] at h
      simp [delKey, hk, ih h]

theorem setKey_fresh_append (m : List (κ × α)) (k : κ) (v : α)
    (h : containsKey m k = false) : setKey m k v = m ++ [(k, v)] := by
  induction m with
  | nil => simp [setKey]
  | cons p rest ih =>
    obtain ⟨k', w⟩ := p
    by_cases hk : k' = k
    · simp [containsKey, hk] at h
    · simp only [containsKey, if_neg hk] at h
      simp [setKey, hk, ih h]

theorem keysOf_setKey_fresh (m : List (κ × α)) (k : κ) (v : α)
    (h : containsKey m k = false) : keysOf (setKey m k v) = keysOf m ++ [k] := by
  induction m with
  | nil => simp [setKey, keysOf]
  | cons p rest ih =>
    obtain ⟨k', w⟩ := p
    by_cases hk : k' = k
    · simp [containsKey, hk] at h
    · simp only [containsKey, if_neg hk] at h
      have := ih h
      simp only [keysOf] at this ⊢
      simp [setKey, hk, this]

theorem delKey_sublist (m : List (κ × α)) (k : κ) :
    (delKey m k).Sublist m := by
  induction m with
  | nil => simp [delKey]
  | cons p rest ih =>
    obtain ⟨k', v⟩ := p
    by_cases hk : k' = k
    · simp only [delKey, if_pos hk]
      exact List.sublist_cons_self (k', v) rest
    · simp only [delKey, if_neg hk]
      exact ih.cons₂ (k', v)

theorem nodup_keys_delKey (m : List (κ × α)) (k : κ)
    (hnd : (keysOf m).Nodup) : (keysOf (delKey m k)).Nodup :=
  hnd.sublist ((delKey_sublist m k).map Prod.fst)

theorem nodup_keys_setKey_fresh (m : List (κ × α)) (k : κ) (v : α)
    (hnd : (keysOf m).Nodup) (h : containsKey m k = false) :
    (keysOf (setKey m k v)).Nodup := by
  rw [keysOf_setKey_fresh m k v h]
  have hk : k ∉ keysOf m := by
    rw [mem_keysOf_iff]
    simp [h]
  simp [List.nodup_append, hnd, hk]

end DictLemmas

/-! ## Characterizing the selector folds

Each loop of do_convert writes, per iteration, at most the binding of the
current key; with unique dict keys the final binding of any key is therefore
decided by its own iteration alone. -/

theorem lookup_foldl_keys (f : String → Option Value) (g : AList → String → AList)
    (hg : ∀ ok k', g ok k' =
      match f k' with
      | some v => setKey ok k' v
      | none => ok)
    (ks : List String) (acc : AList) (k : String) (hnd : ks.Nodup) :
    lookup (ks.foldl g acc) k =
      if k ∈ ks then
        match f k with
        | some v => some v
        | none => lookup acc k
      else lookup acc k := by
  induction ks generalizing acc with
  | nil => simp
  | cons k' ks' ih =>
    simp only [List.nodup_cons] at hnd
    rw [List.foldl_cons]
    by_cases hk : k = k'
    · subst hk
      rw [ih _ hnd.2, if_neg hnd.1, hg, if_pos (List.mem_cons_self k ks')]
      cases hf : f k with
      | some v => simp [hf, lookup_setKey]
      | none => simp [hf]
    · have hgl : lookup (g acc k') k = lookup acc k := by
        rw [hg]
        cases hf : f k' with
        | some v => simp [lookup_setKey, hk]
        | none => rfl
      rw [ih _ hnd.2, hgl]
      by_cases hmem : k ∈ ks' <;> simp [hmem, hk]

theorem lookup_foldl_items (g : String → Value → Option Value)
    (st : AList → (String × Value) → AList)
    (hst : ∀ ok kv, st ok kv =
      match g kv.1 kv.2 with
      | some w => setKey ok kv.1 w
      | none => ok)
    (sd : AList) (acc : AList) (k : String) (hnd : (keysOf sd).Nodup) :
    lookup (sd.foldl st acc) k =
      match lookup sd k with
      | some v =>
        match g k v with
        | some w => some w
        | none => lookup acc k
      | none => lookup acc k := by
  induction sd generalizing acc with
  | nil => simp [lookup]
  | cons kv rest ih =>
    obtain ⟨k', v'⟩ := kv
    simp only [keysOf, List.map_cons, List.nodup_cons] at hnd
    rw [List.foldl_cons]
    by_cases hk : k' = k
    · subst hk
      rw [ih _ hnd.2, lookup_eq_none_of_not_mem_keys rest k' hnd.1, hst]
      simp only [lookup, if_pos rfl]
      cases hg : g k' v' with
      | some w => simp [hg, lookup_setKey]
      | none => simp [hg]
    · have hgl : lookup (st acc (k', v')) k = lookup acc k := by
        rw [hst]
        cases hg : g k' v' with
        | some w => simp [hg, lookup_setKey, Ne.symm hk]
        | none => simp [hg]
      rw [ih _ hnd.2, hgl]
      simp only [lookup, if_neg hk]

/-- Output bindings of the ema-only mode. -/
theorem lookup_convert_ema (opts : ExtraOpt) (conv : Tensor → Tensor)
    (sd : AList) (k : String) (hnd : (keysOf sd).Nodup) :
    lookup (do_convert_core "ema-only" opts conv sd) k =
      if k ∈ keysOf sd then emaKeyResult sd opts conv k else none := by
  unfold do_convert_core
  rw [if_pos rfl,
    lookup_foldl_keys (emaKeyResult sd opts conv) (emaFoldStep sd opts conv)
      (fun ok k' => rfl) (keysOf sd) [] k hnd]
  by_cases hm : k ∈ keysOf sd
  · simp only [hm, if_true]
    cases emaKeyResult sd opts conv k <;> simp [lookup]
  · simp [hm, lookup]

/-- Output bindings of the no-ema mode. -/
theorem lookup_convert_noema (opts : ExtraOpt) (conv : Tensor → Tensor)
    (sd : AList) (k : String) (hnd : (keysOf sd).Nodup) :
    lookup (do_convert_core "no-ema" opts conv sd) k =
      match lookup sd k with
      | some v =>
        if pyContains k "model_ema." = true then none else hfResult opts conv k v
      | none => none := by
  have hst : ∀ ok kv, noEmaFoldStep opts conv ok kv =
      match (if pyContains kv.1 "model_ema." = true then none
             else hfResult opts conv kv.1 kv.2) with
      | some w => setKey ok kv.1 w
      | none => ok := by
    intro ok kv
    unfold noEmaFoldStep hfStep
    cases hc : pyContains kv.1 "model_ema." <;> simp [hc]
  unfold do_convert_core
  rw [if_neg (by decide), if_pos rfl,
    lookup_foldl_items
      (fun k' v => if pyContains k' "model_ema." = true then none
       else hfResult opts conv k' v)
      (noEmaFoldStep opts conv) hst sd [] k hnd]
  cases hl : lookup sd k with
  | none => rfl
  | some v =>
    simp only []
    cases hc : pyContains k "model_ema." with
    | true => simp [hc, lookup]
    | false =>
      cases hfResult opts conv k v <;> simp [lookup]

/-- Output bindings of any other pruning mode (notably "disabled"). -/
theorem lookup_convert_other (ct : String) (h1 : ct ≠ "ema-only")
    (h2 : ct ≠ "no-ema") (opts : ExtraOpt) (conv : Tensor → Tensor)
    (sd : AList) (k : String) (hnd : (keysOf sd).Nodup) :
    lookup (do_convert_core ct opts conv sd) k =
      match lookup sd k with
      | some v => hfResult opts conv k v
      | none => none := by
  unfold do_convert_core
  rw [if_neg h1, if_neg h2,
    lookup_foldl_items (hfResult opts conv)
      (fun ok kv => hfStep opts conv ok kv.1 kv.2) (fun ok kv => rfl) sd [] k hnd]
  cases hl : lookup sd k with
  | none => rfl
  | some v =>
    simp only []
    cases hfResult opts conv k v <;> simp [lookup]

/-! ## Helper facts about the per-key handler -/

theorem copyAll_get (wt : String) : copyAll.get wt = "copy" := by
  by_cases h1 : wt = "unet" <;> by_cases h2 : wt = "clip" <;>
    by_cases h3 : wt = "vae" <;> simp [ExtraOpt.get, copyAll, h1, h2, h3]

theorem hfResult_copyAll_tensor (conv : Tensor → Tensor) (wk : String)
    (t : Tensor) :
    hfResult copyAll conv wk (Value.tensor t) = some (Value.tensor t) := by
  simp only [hfResult, copyAll_get]
  rw [if_neg (by decide : ¬("copy" : String) = "convert")]
  simp

theorem hfResult_nonTensor (opts : ExtraOpt) (conv : Tensor → Tensor)
    (wk : String) (n : Nat) :
    hfResult opts conv wk (Value.nonTensor n) = none := rfl

theorem hfResult_some_inv (opts : ExtraOpt) (conv : Tensor → Tensor)
    (wk : String) (v w : Value) (h : hfResult opts conv wk v = some w) :
    ∃ t, v = Value.tensor t
      ∧ (w = Value.tensor t ∨ w = Value.tensor (conv t)) := by
  cases v with
  | nonTensor n => exact absurd h (by simp [hfResult])
  | tensor t =>
    refine ⟨t, rfl, ?_⟩
    simp only [hfResult] at h
    split at h
    · injection h with h'
      exact Or.inr h'.symm
    · split at h
      · injection h with h'
        exact Or.inl h'.symm
      · exact absurd h (by simp)

/-! ## The rename loop of fix_model

Processing a snapshot of the key list while mutating the dict: under
freshness hypotheses every matched key is renamed exactly once and nothing
else moves. -/

theorem fixNai_fold_spec : ∀ (todo : List String) (mc : AList),
    todo.Nodup → (keysOf mc).Nodup →
    (∀ k ∈ todo, containsKey mc k = true) →
    (∀ k ∈ todo, ∀ nk, renameNai k = some nk →
        containsKey mc nk = false ∧ nk ∉ todo) →
    (∀ k₁ ∈ todo, ∀ k₂ ∈ todo, ∀ nk,
        renameNai k₁ = some nk → renameNai k₂ = some nk → k₁ = k₂) →
    (todo.foldl fixNaiStep mc).length = mc.length
    ∧ (∀ k ∈ todo, ∀ nk, renameNai k = some nk →
        lookup (todo.foldl fixNaiStep mc) nk = lookup mc k
        ∧ lookup (todo.foldl fixNaiStep mc) k = none)
    ∧ (∀ k ∈ todo, renameNai k = none →
        lookup (todo.foldl fixNaiStep mc) k = lookup mc k)
    ∧ (∀ j, j ∉ todo → (∀ k ∈ todo, renameNai k ≠ some j) →
        lookup (todo.foldl fixNaiStep mc) j = lookup mc j) := by
  intro todo
  induction todo with
  | nil =>
    intro mc _ _ _ _ _
    exact ⟨rfl, by simp, by simp, fun j _ _ => rfl⟩
  | cons k todo' ih =>
    intro mc hnd hndm hin hfr hinj
    simp only [List.nodup_cons] at hnd
    have hinK := hin k (List.mem_cons_self _ _)
    rw [List.foldl_cons]
    cases hre : renameNai k with
    | none =>
      have hstep : fixNaiStep mc k = mc := by
        unfold fixNaiStep
        cases hl : lookup mc k with
        | none => rfl
        | some v =>
          have hnf : naiFind k = none := by
            cases hnf : naiFind k with
            | none => rfl
            | some r => rw [renameNai, hnf] at hre; simp at hre
          rw [hnf]
      rw [hstep]
      obtain ⟨ihlen, ihm, ihu, ihfr⟩ := ih mc hnd.2 hndm
        (fun k' hk' => hin k' (List.mem_cons_of_mem _ hk'))
        (fun k' hk' nk hnk =>
          ⟨(hfr k' (List.mem_cons_of_mem _ hk') nk hnk).1,
           fun hmem => (hfr k' (List.mem_cons_of_mem _ hk') nk hnk).2
             (List.mem_cons_of_mem _ hmem)⟩)
        (fun k₁ h₁ k₂ h₂ nk e₁ e₂ =>
          hinj k₁ (List.mem_cons_of_mem _ h₁) k₂ (List.mem_cons_of_mem _ h₂)
            nk e₁ e₂)
      refine ⟨ihlen, ?_, ?_, ?_⟩
      · intro k' hk' nk hnk
        rcases List.mem_cons.mp hk' with rfl | hk'
        · rw [hre] at hnk
          exact absurd hnk (by simp)
        · exact ihm k' hk' nk hnk
      · intro k' hk' h0
        rcases List.mem_cons.mp hk' with rfl | hk'
        · apply ihfr k' hnd.1
          intro k'' hk'' hcon
          have horig := hfr k'' (List.mem_cons_of_mem _ hk'') k' hcon
          exact absurd hinK (by simp [horig.1])
        · exact ihu k' hk' h0
      · intro j hj hnj
        exact ihfr j (fun h => hj (List.mem_cons_of_mem _ h))
          (fun k'' hk'' => hnj k'' (List.mem_cons_of_mem _ hk''))
    | some nk =>
      obtain ⟨v, hv⟩ : ∃ v, lookup mc k = some v := by
        rcases hl : lookup mc k with _ | v
        · rw [containsKey_eq_true_iff, hl] at hinK
          simp at hinK
        · exact ⟨v, rfl⟩
      obtain ⟨r, hr⟩ : ∃ r, naiFind k = some r := by
        cases hnf : naiFind k with
        | none => rw [renameNai, hnf] at hre; simp at hre
        | some r => exact ⟨r, rfl⟩
      have hnk_eq : pyReplace k r.1 r.2 = nk := by
        rw [renameNai, hr] at hre
        simpa using hre
      have hstep : fixNaiStep mc k = delKey (setKey mc nk v) k := by
        unfold fixNaiStep
        rw [hv, hr]
        simp only []
        rw [hnk_eq]
      have hfresh := hfr k (List.mem_cons_self _ _) nk hre
      have hnkk : nk ≠ k := by
        intro he
        subst he
        rw [hfresh.1] at hinK
        exact absurd hinK (by simp)
      have hnd_set : (keysOf (setKey mc nk v)).Nodup :=
        nodup_keys_setKey_fresh mc nk v hndm hfresh.1
      have hndm' : (keysOf (delKey (setKey mc nk v) k)).Nodup :=
        nodup_keys_delKey _ k hnd_set
      have hlook' : ∀ j, lookup (delKey (setKey mc nk v) k) j =
          if j = k then none else if j = nk then some v else lookup mc j := by
        intro j
        rw [lookup_delKey _ _ _ hnd_set, lookup_setKey]
      have hcont' : ∀ j, containsKey (delKey (setKey mc nk v) k) j =
          if j = k then false else if j = nk then true
          else containsKey mc j := by
        intro j
        rw [containsKey_delKey _ _ _ hnd_set, containsKey_setKey]
      have hlen' : (delKey (setKey mc nk v) k).length = mc.length := by
        have h1 : (setKey mc nk v).length = mc.length + 1 :=
          length_setKey_fresh mc nk v hfresh.1
        have h2 : containsKey (setKey mc nk v) k = true := by
          rw [containsKey_setKey, if_neg (fun he => hnkk he.symm)]
          exact hinK
        have h3 := length_delKey_contains (setKey mc nk v) k h2
        omega
      rw [hstep]
      obtain ⟨ihlen, ihm, ihu, ihfr⟩ := ih (delKey (setKey mc nk v) k) hnd.2 hndm'
        (by
          intro k' hk'
          rw [hcont' k']
          have hk'k : k' ≠ k := fun he => hnd.1 (he ▸ hk')
          have hk'nk : k' ≠ nk := fun he =>
            hfresh.2 (he ▸ List.mem_cons_of_mem _ hk')
          rw [if_neg hk'k, if_neg hk'nk]
          exact hin k' (List.mem_cons_of_mem _ hk'))
        (by
          intro k' hk' nk' hnk'
          have horig := hfr k' (List.mem_cons_of_mem _ hk') nk' hnk'
          constructor
          · rw [hcont' nk']
            have hn1 : nk' ≠ k := by
              intro he
              rw [he] at horig
              exact absurd hinK (by simp [horig.1])
            have hn2 : nk' ≠ nk := by
              intro he
              subst he
              have heq := hinj k' (List.mem_cons_of_mem _ hk') k
                (List.mem_cons_self _ _) nk' hnk' hre
              rw [heq] at hk'
              exact hnd.1 hk'
            rw [if_neg hn1, if_neg hn2]
            exact horig.1
          · exact fun hmem => horig.2 (List.mem_cons_of_mem _ hmem))
        (fun k₁ h₁ k₂ h₂ nk' e₁ e₂ =>
          hinj k₁ (List.mem_cons_of_mem _ h₁) k₂ (List.mem_cons_of_mem _ h₂)
            nk' e₁ e₂)
      refine ⟨by rw [ihlen, hlen'], ?_, ?_, ?_⟩
      · intro k' hk' nk' hnk'
        rcases List.mem_cons.mp hk' with rfl | hk'
        · have hnknk' : nk' = nk := by
            rw [hre] at hnk'
            exact (Option.some.injEq _ _).mp hnk'.symm
          subst hnknk'
          constructor
          · rw [ihfr nk'
              (fun hmem => hfresh.2 (List.mem_cons_of_mem _ hmem))
              (fun k'' hk'' hcon => by
                have heq := hinj k'' (List.mem_cons_of_mem _ hk'') k'
                  (List.mem_cons_self _ _) nk' hcon hre
                rw [heq] at hk''
                exact hnd.1 hk'')]
            rw [hlook' nk', if_neg hnkk, if_pos rfl, hv]
          · rw [ihfr k' hnd.1
              (fun k'' hk'' hcon => by
                have horig := hfr k'' (List.mem_cons_of_mem _ hk'') k' hcon
                exact absurd hinK (by simp [horig.1]))]
            rw [hlook' k', if_pos rfl]
        · have hres := ihm k' hk' nk' hnk'
          have hmc' : lookup (delKey (setKey mc nk v) k) k' = lookup mc k' := by
            rw [hlook' k']
            have hk'k : k' ≠ k := fun he => hnd.1 (he ▸ hk')
            have hk'nk : k' ≠ nk := fun he =>
              hfresh.2 (he ▸ List.mem_cons_of_mem _ hk')
            rw [if_neg hk'k, if_neg hk'nk]
          exact ⟨hres.1.trans hmc', hres.2⟩
      · intro k' hk' h0
        rcases List.mem_cons.mp hk' with rfl | hk'
        · rw [hre] at h0
          exact absurd h0 (by simp)
        · rw [ihu k' hk' h0, hlook' k']
          have hk'k : k' ≠ k := fun he => hnd.1 (he ▸ hk')
          have hk'nk : k' ≠ nk := fun he =>
            hfresh.2 (he ▸ List.mem_cons_of_mem _ hk')
          rw [if_neg hk'k, if_neg hk'nk]
      · intro j hj hnj
        have hjk : j ≠ k := fun he => hj (he ▸ List.mem_cons_self _ _)
        have hjnk : j ≠ nk := by
          intro he
          subst he
          exact hnj k (List.mem_cons_self _ _) hre
        rw [ihfr j (fun h => hj (List.mem_cons_of_mem _ h))
          (fun k'' hk'' => hnj k'' (List.mem_cons_of_mem _ hk''))]
        rw [hlook' j, if_neg hjk, if_neg hjnk]


/-! ## Claim theorems -/

/-- C3: conv_fp16 casts to 16-bit float exactly when the dtype lies in
dtypes_to_fp16 = [float32, float64, bfloat16] and returns the tensor
unchanged otherwise; symmetrically conv_bf16 casts to bfloat16 exactly when
the dtype lies in dtypes_to_bf16 = [float32, float64, float16] and is the
identity otherwise. -/
theorem conv_cast_dtypes (t : Tensor) :
    ((t.dtype ∈ dtypes_to_fp16 → (conv_fp16 t).dtype = DType.float16)
      ∧ (t.dtype ∉ dtypes_to_fp16 → conv_fp16 t = t))
    ∧ ((t.dtype ∈ dtypes_to_bf16 → (conv_bf16 t).dtype = DType.bfloat16)
      ∧ (t.dtype ∉ dtypes_to_bf16 → conv_bf16 t = t)) := by
  refine ⟨⟨fun h => ?_, fun h => ?_⟩, fun h => ?_, fun h => ?_⟩ <;>
    simp [conv_fp16, conv_bf16, Tensor.half, Tensor.toBF16, h]

/-- C3 witness: the cast and the identity branch of both precision functions
evaluated at concrete tensors. -/
theorem conv_cast_dtypes_witness :
    (conv_fp16 ⟨.float32, [0]⟩).dtype = DType.float16
    ∧ conv_fp16 ⟨.int64, [0]⟩ = ⟨.int64, [0]⟩
    ∧ (conv_bf16 ⟨.float16, [0]⟩).dtype = DType.bfloat16
    ∧ conv_bf16 ⟨.bfloat16, [0]⟩ = ⟨.bfloat16, [0]⟩ :=
  ⟨(conv_cast_dtypes ⟨.float32, [0]⟩).1.1 (by decide),
   (conv_cast_dtypes ⟨.int64, [0]⟩).1.2 (by decide),
   (conv_cast_dtypes ⟨.float16, [0]⟩).2.1 (by decide),
   (conv_cast_dtypes ⟨.bfloat16, [0]⟩).2.2 (by decide)⟩

/-- C2 counterexample: a key holding a non-tensor value under an all-copy
configuration is dropped from the output instead of appearing with its value
unchanged, as the claim states. -/
theorem nontensor_copy_cex :
    do_convert_core "disabled" copyAll (fun t => t)
      [("k", Value.nonTensor 5)] = []
    ∧ ([] : AList) ≠ [("k", Value.nonTensor 5)] :=
  ⟨by decide, by decide⟩

/-- C2 (amended): a key whose effective value is not a tensor never appears
in the output under any directive: _hf returns before writing, so the value
is dropped rather than copied.  In ema-only mode the effective value is the
shadow value when a shadow exists, hence the no-shadow hypothesis for that
mode. -/
theorem nontensor_dropped :
    (∀ opts conv wk n, hfResult opts conv wk (Value.nonTensor n) = none)
    ∧ (∀ ct opts conv sd k n, (keysOf sd).Nodup →
        (ct = "ema-only" → lookup sd (ema_shadow_key k) = none) →
        lookup sd k = some (Value.nonTensor n) →
        lookup (do_convert_core ct opts conv sd) k = none) := by
  refine ⟨fun opts conv wk n => rfl, ?_⟩
  intro ct opts conv sd k n hnd hsh hl
  by_cases h1 : ct = "ema-only"
  · subst h1
    rw [lookup_convert_ema opts conv sd k hnd]
    by_cases hm : k ∈ keysOf sd
    · rw [if_pos hm]
      unfold emaKeyResult
      rw [hsh rfl]
      simp only []
      rw [hl]
      simp [hfResult]
    · rw [if_neg hm]
  · by_cases h2 : ct = "no-ema"
    · subst h2
      rw [lookup_convert_noema opts conv sd k hnd, hl]
      simp only []
      cases pyContains k "model_ema." <;> simp [hfResult]
    · rw [lookup_convert_other ct h1 h2 opts conv sd k hnd, hl]
      simp [hfResult]

/-- C2 witness: the amended theorem applied to a concrete one-entry mapping
with a non-tensor value. -/
theorem nontensor_dropped_witness :
    lookup (do_convert_core "disabled" copyAll (fun t => t)
      [("k", Value.nonTensor 5)]) "k" = none :=
  nontensor_dropped.2 "disabled" copyAll (fun t => t)
    [("k", Value.nonTensor 5)] "k" 5 (by decide)
    (fun h => absurd h (by decide)) (by decide)

/-- C9 counterexample: a path with the safetensors extension whose parsed
mapping contains a "state_dict" entry loads as that entry value, not as the
full mapping, because the state_dict extraction runs on both loader
branches. -/
theorem load_safetensors_cex :
    load_model "a.safetensors"
      [("state_dict", PyVal.base (Value.tensor ⟨.float32, [0]⟩)),
       ("w", PyVal.base (Value.tensor ⟨.float32, [1]⟩))] []
      = LoadResult.entry (PyVal.base (Value.tensor ⟨.float32, [0]⟩))
    ∧ LoadResult.entry (PyVal.base (Value.tensor ⟨.float32, [0]⟩))
      ≠ LoadResult.whole
          [("state_dict", PyVal.base (Value.tensor ⟨.float32, [0]⟩)),
           ("w", PyVal.base (Value.tensor ⟨.float32, [1]⟩))] :=
  ⟨by decide, by decide⟩

/-- C9 (amended): for a path with the safetensors extension the parsed
mapping is returned as-is only when it has no "state_dict" entry; when it
has one, that entry value is returned instead, exactly as on the generic
branch. -/
theorem load_state_dict_extract (path : String)
    (sp tp : List (String × PyVal))
    (h : pyEndsWith path ".safetensors" = true) :
    (∀ v, lookup sp "state_dict" = some v → load_model path sp tp = .entry v)
    ∧ (lookup sp "state_dict" = none → load_model path sp tp = .whole sp) := by
  constructor
  · intro v hv
    simp [load_model, h, hv]
  · intro hv
    simp [load_model, h, hv]

/-- C9 witness: the amended theorem applied to a safetensors path, once with
and once without a "state_dict" entry. -/
theorem load_state_dict_extract_witness :
    load_model "m.safetensors"
      [("state_dict", PyVal.base (Value.nonTensor 3))] []
      = LoadResult.entry (PyVal.base (Value.nonTensor 3))
    ∧ load_model "m.safetensors"
      [("w", PyVal.base (Value.nonTensor 4))] []
      = LoadResult.whole [("w", PyVal.base (Value.nonTensor 4))] :=
  ⟨(load_state_dict_extract "m.safetensors"
      [("state_dict", PyVal.base (Value.nonTensor 3))] [] (by decide)).1
      (PyVal.base (Value.nonTensor 3)) (by decide),
   (load_state_dict_extract "m.safetensors"
      [("w", PyVal.base (Value.nonTensor 4))] [] (by decide)).2 (by decide)⟩

/-- C6: in no-ema mode a key reaches the output only if its name does not
contain the substring "model_ema."; every key without that substring is
considered and, under all-copy directives with a tensor value, emitted
unchanged; on the spec example only the key "a.b" survives. -/
theorem noema_substring :
    (∀ opts conv sd k, (keysOf sd).Nodup →
        containsKey (do_convert_core "no-ema" opts conv sd) k = true →
        pyContains k "model_ema." = false)
    ∧ (∀ conv sd k t, (keysOf sd).Nodup →
        lookup sd k = some (Value.tensor t) →
        pyContains k "model_ema." = false →
        lookup (do_convert_core "no-ema" copyAll conv sd) k
          = some (Value.tensor t))
    ∧ do_convert_core "no-ema" copyAll (fun t => t)
        [("a.b", Value.tensor ⟨.float32, [1]⟩),
         ("model_ema.ab", Value.tensor ⟨.float32, [2]⟩)]
      = [("a.b", Value.tensor ⟨.float32, [1]⟩)] := by
  refine ⟨?_, ?_, by decide⟩
  · intro opts conv sd k hnd hc
    cases h : pyContains k "model_ema." with
    | false => rfl
    | true =>
      exfalso
      rw [containsKey_eq_true_iff, lookup_convert_noema opts conv sd k hnd] at hc
      cases hl : lookup sd k with
      | none => rw [hl] at hc; simp at hc
      | some v => rw [hl, h] at hc; simp at hc
  · intro conv sd k t hnd hl hnc
    rw [lookup_convert_noema copyAll conv sd k hnd, hl]
    simp [hnc, hfResult_copyAll_tensor]

/-- C6 witness: both universally quantified parts applied to the spec
example mapping. -/
theorem noema_substring_witness :
    pyContains "a.b" "model_ema." = false
    ∧ lookup (do_convert_core "no-ema" copyAll (fun t => t)
        [("a.b", Value.tensor ⟨.float32, [1]⟩),
         ("model_ema.ab", Value.tensor ⟨.float32, [2]⟩)]) "a.b"
      = some (Value.tensor ⟨.float32, [1]⟩) :=
  ⟨noema_substring.1 copyAll (fun t => t)
      [("a.b", Value.tensor ⟨.float32, [1]⟩),
       ("model_ema.ab", Value.tensor ⟨.float32, [2]⟩)] "a.b"
      (by decide) (by decide),
   noema_substring.2.1 (fun t => t)
      [("a.b", Value.tensor ⟨.float32, [1]⟩),
       ("model_ema.ab", Value.tensor ⟨.float32, [2]⟩)] "a.b" ⟨.float32, [1]⟩
      (by decide) (by decide) (by decide)⟩

/-- C10: whatever the pruning mode, cast function and directives, every key
of the output mapping is a key of the input mapping, and every emitted value
is a stored input value or the cast image of a stored input tensor. -/
theorem convert_output_origin (ct : String) (opts : ExtraOpt)
    (conv : Tensor → Tensor) (sd : AList) (k : String) (v : Value)
    (hnd : (keysOf sd).Nodup)
    (h : lookup (do_convert_core ct opts conv sd) k = some v) :
    containsKey sd k = true
    ∧ ∃ k₀ v₀, lookup sd k₀ = some v₀
        ∧ (v = v₀ ∨ ∃ t₀, v₀ = Value.tensor t₀
            ∧ v = Value.tensor (conv t₀)) := by
  by_cases h1 : ct = "ema-only"
  · subst h1
    rw [lookup_convert_ema opts conv sd k hnd] at h
    by_cases hm : k ∈ keysOf sd
    · rw [if_pos hm] at h
      refine ⟨(mem_keysOf_iff sd k).mp hm, ?_⟩
      unfold emaKeyResult at h
      cases hsh : lookup sd (ema_shadow_key k) with
      | some v₀ =>
        rw [hsh] at h
        simp only [] at h
        rcases hfResult_some_inv _ _ _ _ _ h with ⟨t₀, hv₀, hw | hw⟩
        · exact ⟨ema_shadow_key k, v₀, hsh, Or.inl (by rw [hw, hv₀])⟩
        · exact ⟨ema_shadow_key k, v₀, hsh, Or.inr ⟨t₀, hv₀, hw⟩⟩
      | none =>
        rw [hsh] at h
        simp only [] at h
        split at h
        · cases hl : lookup sd k with
          | none => rw [hl] at h; exact absurd h (by simp)
          | some v₀ =>
            rw [hl] at h
            simp only [] at h
            rcases hfResult_some_inv _ _ _ _ _ h with ⟨t₀, hv₀, hw | hw⟩
            · exact ⟨k, v₀, hl, Or.inl (by rw [hw, hv₀])⟩
            · exact ⟨k, v₀, hl, Or.inr ⟨t₀, hv₀, hw⟩⟩
        · exact absurd h (by simp)
    · rw [if_neg hm] at h
      exact absurd h (by simp)
  · by_cases h2 : ct = "no-ema"
    · subst h2
      rw [lookup_convert_noema opts conv sd k hnd] at h
      cases hl : lookup sd k with
      | none => rw [hl] at h; exact absurd h (by simp)
      | some v₀ =>
        rw [hl] at h
        simp only [] at h
        split at h
        · exact absurd h (by simp)
        · refine ⟨by rw [containsKey_eq_true_iff, hl]; rfl, ?_⟩
          rcases hfResult_some_inv _ _ _ _ _ h with ⟨t₀, hv₀, hw | hw⟩
          · exact ⟨k, v₀, hl, Or.inl (by rw [hw, hv₀])⟩
          · exact ⟨k, v₀, hl, Or.inr ⟨t₀, hv₀, hw⟩⟩
    · rw [lookup_convert_other ct h1 h2 opts conv sd k hnd] at h
      cases hl : lookup sd k with
      | none => rw [hl] at h; exact absurd h (by simp)
      | some v₀ =>
        rw [hl] at h
        simp only [] at h
        refine ⟨by rw [containsKey_eq_true_iff, hl]; rfl, ?_⟩
        rcases hfResult_some_inv _ _ _ _ _ h with ⟨t₀, hv₀, hw | hw⟩
        · exact ⟨k, v₀, hl, Or.inl (by rw [hw, hv₀])⟩
        · exact ⟨k, v₀, hl, Or.inr ⟨t₀, hv₀, hw⟩⟩

/-- C10 witness: the origin theorem applied to a concrete run in disabled
mode. -/
theorem convert_output_origin_witness :
    containsKey [("a", Value.tensor ⟨.float32, [3]⟩)] "a" = true
    ∧ ∃ k₀ v₀, lookup [("a", Value.tensor ⟨.float32, [3]⟩)] k₀ = some v₀
        ∧ (Value.tensor ⟨.float32, [3]⟩ = v₀
           ∨ ∃ t₀, v₀ = Value.tensor t₀
              ∧ Value.tensor ⟨.float32, [3]⟩
                = Value.tensor ((fun t => t) t₀)) :=
  convert_output_origin "disabled" copyAll (fun t => t)
    [("a", Value.tensor ⟨.float32, [3]⟩)] "a" (Value.tensor ⟨.float32, [3]⟩)
    (by decide) (by decide)

/-- The disabled-mode loop under all-copy directives reproduces the iterated
items verbatim when every value is a tensor. -/
theorem foldl_hfStep_copy_append (conv : Tensor → Tensor) (sd acc : AList)
    (hnd : (keysOf acc ++ keysOf sd).Nodup)
    (ht : ∀ kv ∈ sd, ∃ t, kv.2 = Value.tensor t) :
    sd.foldl (fun ok kv => hfStep copyAll conv ok kv.1 kv.2) acc = acc ++ sd := by
  induction sd generalizing acc with
  | nil => simp
  | cons kv rest ih =>
    obtain ⟨k, v⟩ := kv
    obtain ⟨t, hv⟩ := ht (k, v) (List.mem_cons_self _ _)
    simp only [] at hv
    subst hv
    simp only [keysOf, List.map_cons] at hnd
    have hmem : k ∉ keysOf acc := by
      intro hk
      rcases List.nodup_append.mp hnd with ⟨-, -, hdisj⟩
      exact hdisj hk (List.mem_cons_self _ _)
    have hkacc : containsKey acc k = false := by
      rcases hc : containsKey acc k with _ | _
      · rfl
      · exact absurd ((mem_keysOf_iff acc k).mpr hc) hmem
    rw [List.foldl_cons]
    have hstep : hfStep copyAll conv acc k (Value.tensor t)
        = acc ++ [(k, Value.tensor t)] := by
      unfold hfStep
      rw [hfResult_copyAll_tensor]
      exact setKey_fresh_append acc k _ hkacc
    rw [hstep, ih (acc ++ [(k, Value.tensor t)])
      (by
        simpa [keysOf, List.append_assoc]
          using hnd)
      (fun kv hkv => ht kv (List.mem_cons_of_mem _ hkv))]
    simp

/-- C7 counterexample: with pruning disabled, fp32 precision and all-copy
directives, a mapping holding a non-tensor value is not reproduced: the
non-tensor entry is dropped. -/
theorem copy_identity_cex :
    do_convert_sel "fp32" "disabled" copyAll [("a", Value.nonTensor 0)]
      = some []
    ∧ some ([] : AList) ≠ some [("a", Value.nonTensor 0)] :=
  ⟨by decide, by decide⟩

/-- C7 (amended): with pruning disabled, full or fp32 precision and all-copy
directives, the output reproduces the input exactly provided every stored
value is a tensor; entries with non-tensor values are dropped instead. -/
theorem copy_identity_tensors (sd : AList) (hnd : (keysOf sd).Nodup)
    (ht : ∀ kv ∈ sd, ∃ t, kv.2 = Value.tensor t) :
    do_convert_sel "full" "disabled" copyAll sd = some sd
    ∧ do_convert_sel "fp32" "disabled" copyAll sd = some sd := by
  have key : ∀ conv : Tensor → Tensor,
      do_convert_core "disabled" copyAll conv sd = sd := by
    intro conv
    unfold do_convert_core
    rw [if_neg (by decide), if_neg (by decide)]
    have h := foldl_hfStep_copy_append conv sd []
      (by simpa [keysOf] using hnd) ht
    simpa using h
  exact ⟨by simp [do_convert_sel, g_precision_func, key],
    by simp [do_convert_sel, g_precision_func, key]⟩

/-- C7 witness: the amended identity applied to a concrete all-tensor
mapping. -/
theorem copy_identity_tensors_witness :
    do_convert_sel "full" "disabled" copyAll
      [("x", Value.tensor ⟨.float32, [7]⟩)]
      = some [("x", Value.tensor ⟨.float32, [7]⟩)]
    ∧ do_convert_sel "fp32" "disabled" copyAll
      [("x", Value.tensor ⟨.float32, [7]⟩)]
      = some [("x", Value.tensor ⟨.float32, [7]⟩)] :=
  copy_identity_tensors [("x", Value.tensor ⟨.float32, [7]⟩)] (by decide)
    (by
      intro kv hkv
      simp only [List.mem_singleton] at hkv
      subst hkv
      exact ⟨⟨.float32, [7]⟩, rfl⟩)

/-- C1 counterexample: on the input of the claim the shadow key computed for
"a.b.weight" is "model_ema.ight" (slicing strips the first six characters),
so no shadow exists and the output keeps T1, not the claimed T2. -/
theorem ema_only_example_cex :
    do_convert_core "ema-only" copyAll (fun t => t)
      [("a.b.weight", Value.tensor ⟨.float32, [1]⟩),
       ("model_ema.abweight", Value.tensor ⟨.float32, [2]⟩)]
      = [("a.b.weight", Value.tensor ⟨.float32, [1]⟩)]
    ∧ Value.tensor (⟨.float32, [1]⟩ : Tensor) ≠ Value.tensor ⟨.float32, [2]⟩
    ∧ ema_shadow_key "a.b.weight" = "model_ema.ight" :=
  ⟨by decide, by decide, by decide⟩

/-- C1 (amended): the shadow key strips the first six characters, removes
dots and prepends "model_ema."; a key whose shadow exists is emitted under
its own name with the shadow value, a non-EMA key without a shadow passes
through unchanged, and the concrete example requires a six-character
"model." prefix: on \x7b"model.a.b.weight": T1, "model_ema.abweight": T2\x7d the
output is \x7b"model.a.b.weight": T2\x7d. -/
theorem ema_only_shadow :
    (∀ conv sd k t, (keysOf sd).Nodup → k ∈ keysOf sd →
        lookup sd (ema_shadow_key k) = some (Value.tensor t) →
        lookup (do_convert_core "ema-only" copyAll conv sd) k
          = some (Value.tensor t))
    ∧ (∀ conv sd k t, (keysOf sd).Nodup → k ∈ keysOf sd →
        lookup sd (ema_shadow_key k) = none →
        pyStartsWith k "model_ema." = false →
        lookup sd k = some (Value.tensor t) →
        lookup (do_convert_core "ema-only" copyAll conv sd) k
          = some (Value.tensor t))
    ∧ do_convert_core "ema-only" copyAll (fun t => t)
        [("model.a.b.weight", Value.tensor ⟨.float32, [1]⟩),
         ("model_ema.abweight", Value.tensor ⟨.float32, [2]⟩)]
      = [("model.a.b.weight", Value.tensor ⟨.float32, [2]⟩)] := by
  refine ⟨?_, ?_, by decide⟩
  · intro conv sd k t hnd hm hsh
    rw [lookup_convert_ema copyAll conv sd k hnd, if_pos hm]
    unfold emaKeyResult
    rw [hsh]
    simp [hfResult_copyAll_tensor]
  · intro conv sd k t hnd hm hsh hpre hl
    rw [lookup_convert_ema copyAll conv sd k hnd, if_pos hm]
    unfold emaKeyResult
    rw [hsh]
    simp [hpre, hl, hfResult_copyAll_tensor]

/-- C1 witness: the substitution and the pass-through part of the amended
theorem applied to concrete mappings. -/
theorem ema_only_shadow_witness :
    lookup (do_convert_core "ema-only" copyAll (fun t => t)
      [("model.a.b.weight", Value.tensor ⟨.float32, [1]⟩),
       ("model_ema.abweight", Value.tensor ⟨.float32, [2]⟩)])
      "model.a.b.weight" = some (Value.tensor ⟨.float32, [2]⟩)
    ∧ lookup (do_convert_core "ema-only" copyAll (fun t => t)
        [("w.x", Value.tensor ⟨.float32, [4]⟩)]) "w.x"
      = some (Value.tensor ⟨.float32, [4]⟩) :=
  ⟨ema_only_shadow.1 (fun t => t)
      [("model.a.b.weight", Value.tensor ⟨.float32, [1]⟩),
       ("model_ema.abweight", Value.tensor ⟨.float32, [2]⟩)]
      "model.a.b.weight" ⟨.float32, [2]⟩ (by decide) (by decide) (by decide),
   ema_only_shadow.2.1 (fun t => t)
      [("w.x", Value.tensor ⟨.float32, [4]⟩)] "w.x" ⟨.float32, [4]⟩
      (by decide) (by decide) (by decide) (by decide) (by decide)⟩

/-! ## Facts about the fix-clip index check -/

theorem brokenIndices_canonical :
    brokenIndices correct_position_ids.data = [] := by decide

theorem brokenIndices_ne_nil (d : List Int) (hlen : d.length = 77)
    (hne : d ≠ correct_position_ids.data) : brokenIndices d ≠ [] := by
  intro hb
  apply hne
  have hall : ∀ i ∈ List.range 77, d.getD i 0 = (i : Int) := by
    intro i hi
    have h := List.filter_eq_nil_iff.mp hb i hi
    simpa using h
  have hlen2 : correct_position_ids.data.length = 77 := by
    simp [correct_position_ids]
  apply List.ext_getElem (by rw [hlen, hlen2])
  intro i h1 h2
  have hi77 : i < 77 := by rwa [hlen] at h1
  have hd := hall i (List.mem_range.mpr hi77)
  rw [List.getD_eq_getElem d 0 h1] at hd
  rw [hd]
  simp [correct_position_ids]

/-- C4: with the fix-clip flag on and the positional-id key holding a tensor
of 77 values, a tensor matching the canonical sequence 0..76 is left alone
and a no-op is reported, while any mismatch replaces the whole tensor by the
canonical int64 sequence and reports the differing indices.  The rename
stage is assumed to leave the mapping alone (hypothesis h1), as it does for
every real checkpoint key set. -/
theorem fix_clip_repair (model : AList) (t : Tensor)
    (h1 : fixNaiKeys model = model)
    (h2 : lookup model position_id_key = some (Value.tensor t))
    (h3 : t.data.length = 77) :
    (t.data = correct_position_ids.data →
      fix_model model true false = (model, some []))
    ∧ (t.data ≠ correct_position_ids.data →
      fix_model model true false
        = (setKey model position_id_key (Value.tensor correct_position_ids),
           some (brokenIndices t.data))
        ∧ brokenIndices t.data ≠ []) := by
  have hbase : fix_model model true false =
      if brokenIndices t.data ≠ [] then
        (setKey model position_id_key (Value.tensor correct_position_ids),
         some (brokenIndices t.data))
      else (model, some []) := by
    simp only [fix_model, h1, Tensor.toInt64, Bool.false_eq_true, if_false,
      if_true]
    rw [h2]
  constructor
  · intro hd
    rw [hbase, hd, brokenIndices_canonical]
    simp
  · intro hd
    have hne := brokenIndices_ne_nil t.data h3 hd
    rw [hbase, if_pos hne]
    exact ⟨rfl, hne⟩

/-- C4 witness: the theorem applied to a canonical positional-id tensor and
to one where index 5 holds 99. -/
theorem fix_clip_repair_witness :
    fix_model [(position_id_key,
        Value.tensor ⟨.int64, (List.range 77).map Int.ofNat⟩)] true false
      = ([(position_id_key,
          Value.tensor ⟨.int64, (List.range 77).map Int.ofNat⟩)], some [])
    ∧ (fix_model [(position_id_key,
        Value.tensor ⟨.int64, (List.range 77).map
          (fun i => if i = 5 then (99 : Int) else Int.ofNat i)⟩)] true false
      = (setKey [(position_id_key,
          Value.tensor ⟨.int64, (List.range 77).map
            (fun i => if i = 5 then (99 : Int) else Int.ofNat i)⟩)]
          position_id_key (Value.tensor correct_position_ids),
         some (brokenIndices ((List.range 77).map
           (fun i => if i = 5 then (99 : Int) else Int.ofNat i))))
      ∧ brokenIndices ((List.range 77).map
          (fun i => if i = 5 then (99 : Int) else Int.ofNat i)) ≠ []) :=
  ⟨(fix_clip_repair
      [(position_id_key,
        Value.tensor ⟨.int64, (List.range 77).map Int.ofNat⟩)]
      ⟨.int64, (List.range 77).map Int.ofNat⟩
      (by decide) (by decide) (by decide)).1 (by decide),
   (fix_clip_repair
      [(position_id_key,
        Value.tensor ⟨.int64, (List.range 77).map
          (fun i => if i = 5 then (99 : Int) else Int.ofNat i)⟩)]
      ⟨.int64, (List.range 77).map
        (fun i => if i = 5 then (99 : Int) else Int.ofNat i)⟩
      (by decide) (by decide) (by decide)).2 (by decide)⟩

/-- C5 counterexample: when the corrected key already exists, the rename
overwrites it: on a two-entry mapping holding both the broken and the
corrected spelling, the repaired mapping has one entry, with the overwritten
value lost, so the total key count is not preserved. -/
theorem nai_collision_cex :
    fixNaiKeys
      [("cond_stage_model.transformer.embeddings.foo",
        Value.tensor ⟨.float32, [1]⟩),
       ("cond_stage_model.transformer.text_model.embeddings.foo",
        Value.tensor ⟨.float32, [2]⟩)]
      = [("cond_stage_model.transformer.text_model.embeddings.foo",
          Value.tensor ⟨.float32, [1]⟩)]
    ∧ (fixNaiKeys
        [("cond_stage_model.transformer.embeddings.foo",
          Value.tensor ⟨.float32, [1]⟩),
         ("cond_stage_model.transformer.text_model.embeddings.foo",
          Value.tensor ⟨.float32, [2]⟩)]).length = 1
    ∧ ([("cond_stage_model.transformer.embeddings.foo",
          Value.tensor ⟨.float32, [1]⟩),
        ("cond_stage_model.transformer.text_model.embeddings.foo",
          Value.tensor ⟨.float32, [2]⟩)] : AList).length = 2
    ∧ (1 : Nat) ≠ 2 :=
  ⟨by decide, by decide, by decide, by decide⟩

/-- C5 (amended): the key-prefix repair runs unconditionally; every key
starting with a broken prefix is renamed to its corrected spelling with the
value preserved and the old key removed, and the total key count is
unchanged, provided the corrected names are fresh: none of them is already a
key of the mapping and no two keys rename to the same corrected name.  When
a corrected name collides with an existing key, that entry is overwritten
and the count drops. -/
theorem nai_rename_spec (m : AList)
    (hnd : (keysOf m).Nodup)
    (hfr : ∀ k ∈ keysOf m, ∀ nk, renameNai k = some nk →
        containsKey m nk = false)
    (hinj : ∀ k₁ ∈ keysOf m, ∀ k₂ ∈ keysOf m, ∀ nk,
        renameNai k₁ = some nk → renameNai k₂ = some nk → k₁ = k₂) :
    (fix_model m false false).1.length = m.length
    ∧ (∀ k ∈ keysOf m, ∀ nk, renameNai k = some nk →
        lookup (fix_model m false false).1 nk = lookup m k
        ∧ lookup (fix_model m false false).1 k = none)
    ∧ (∀ k ∈ keysOf m, renameNai k = none →
        lookup (fix_model m false false).1 k = lookup m k) := by
  have hfix : (fix_model m false false).1 = (keysOf m).foldl fixNaiStep m := by
    simp [fix_model, fixNaiKeys]
  have hfr' : ∀ k ∈ keysOf m, ∀ nk, renameNai k = some nk →
      containsKey m nk = false ∧ nk ∉ keysOf m := by
    intro k hk nk hnk
    refine ⟨hfr k hk nk hnk, fun hmem => ?_⟩
    have := (mem_keysOf_iff m nk).mp hmem
    rw [hfr k hk nk hnk] at this
    exact absurd this (by simp)
  have hin : ∀ k ∈ keysOf m, containsKey m k = true :=
    fun k hk => (mem_keysOf_iff m k).mp hk
  obtain ⟨hlen, hm, hu, -⟩ :=
    fixNai_fold_spec (keysOf m) m hnd hnd hin hfr' hinj
  rw [hfix]
  exact ⟨hlen, hm, hu⟩

/-- C5 witness: the amended theorem applied to a one-entry mapping holding
the broken embeddings prefix. -/
theorem nai_rename_spec_witness :
    lookup (fix_model
        [("cond_stage_model.transformer.embeddings.foo",
          Value.tensor ⟨.float32, [3]⟩)] false false).1
      "cond_stage_model.transformer.text_model.embeddings.foo"
      = lookup
        [("cond_stage_model.transformer.embeddings.foo",
          Value.tensor ⟨.float32, [3]⟩)]
        "cond_stage_model.transformer.embeddings.foo"
    ∧ lookup (fix_model
        [("cond_stage_model.transformer.embeddings.foo",
          Value.tensor ⟨.float32, [3]⟩)] false false).1
      "cond_stage_model.transformer.embeddings.foo" = none :=
  (nai_rename_spec
    [("cond_stage_model.transformer.embeddings.foo",
      Value.tensor ⟨.float32, [3]⟩)]
    (by decide)
    (by
      intro k hk nk hnk
      simp only [keysOf, List.map_cons, List.map_nil, List.mem_singleton] at hk
      subst hk
      rw [show renameNai "cond_stage_model.transformer.embeddings.foo"
          = some "cond_stage_model.transformer.text_model.embeddings.foo"
        from by decide] at hnk
      injection hnk with hnk
      subst hnk
      decide)
    (by
      intro k₁ h₁ k₂ h₂ nk e₁ e₂
      simp only [keysOf, List.map_cons, List.map_nil,
        List.mem_singleton] at h₁ h₂
      rw [h₁, h₂])).2.1
    "cond_stage_model.transformer.embeddings.foo"
    (by simp [keysOf])
    "cond_stage_model.transformer.text_model.embeddings.foo"
    (by decide)

/-! ## The exception flow of the ema-only loop -/

theorem hfP_str_ok (opts : ExtraOpt) (conv : Tensor → Tensor)
    (ok : List (PyKey × Value)) (s : String) (v : Value) :
    ∃ acc', hfP opts conv ok (PyKey.str s) v = .ok acc' := by
  cases v with
  | nonTensor n => exact ⟨ok, rfl⟩
  | tensor t => exact ⟨_, rfl⟩

theorem emaStepP_str_ok (sd : List (PyKey × Value)) (opts : ExtraOpt)
    (conv : Tensor → Tensor) (ok : List (PyKey × Value)) (s : String) :
    ∃ acc', emaStepP sd opts conv ok (PyKey.str s) = .ok acc' := by
  unfold emaStepP
  simp only []
  split
  · cases hl : lookup sd (PyKey.str (ema_shadow_key s)) with
    | some v => exact hfP_str_ok opts conv ok s v
    | none => exact ⟨ok, rfl⟩
  · split
    · cases hl : lookup sd (PyKey.str s) with
      | some v => exact hfP_str_ok opts conv ok s v
      | none => exact ⟨ok, rfl⟩
    · exact ⟨ok, rfl⟩

theorem emaStepP_intKey_error (sd : List (PyKey × Value)) (opts : ExtraOpt)
    (conv : Tensor → Tensor) (ok : List (PyKey × Value)) (n : Int)
    (hsent : containsKey sd (PyKey.str "___") = false) :
    emaStepP sd opts conv ok (PyKey.intKey n)
      = .error .attributeError := by
  unfold emaStepP
  simp only []
  rw [if_neg (by simp [hsent])]

theorem foldlM_emaStepP_error (sd : List (PyKey × Value)) (opts : ExtraOpt)
    (conv : Tensor → Tensor) (n : Int)
    (hsent : containsKey sd (PyKey.str "___") = false) :
    ∀ (ks : List PyKey) (acc : List (PyKey × Value)),
      PyKey.intKey n ∈ ks →
      ∃ e, List.foldlM (emaStepP sd opts conv) acc ks = .error e := by
  intro ks
  induction ks with
  | nil =>
    intro acc h
    simp at h
  | cons k ks' ih =>
    intro acc hmem
    rw [List.foldlM_cons]
    cases k with
    | intKey m =>
      rw [emaStepP_intKey_error sd opts conv acc m hsent]
      exact ⟨.attributeError, rfl⟩
    | str s =>
      obtain ⟨acc', hacc⟩ := emaStepP_str_ok sd opts conv acc s
      rw [hacc]
      have hmem' : PyKey.intKey n ∈ ks' := by
        rcases List.mem_cons.mp hmem with h | h
        · exact absurd h (by simp)
        · exact h
      exact ih acc' hmem'

/-- C8 counterexample: in ema-only mode a dict holding a malformed
(non-string) key aborts the run: the bare except replaces the shadow name by
the sentinel, but the subsequent startswith test raises AttributeError
outside any try block. -/
theorem ema_malformed_cex :
    emaOnlyRunP copyAll (fun t => t)
      [(PyKey.str "w.a", Value.tensor ⟨.float32, [1]⟩),
       (PyKey.intKey 7, Value.tensor ⟨.float32, [2]⟩)]
      = Except.error PyErr.attributeError := by rfl

/-- C8 (amended): the sentinel localizes only the shadow-name computation:
whenever a malformed (non-string) key is present and the sentinel key "___"
is not a key of the dict, the ema-only run aborts with an exception at the
prefix test of that key instead of skipping it; for string keys the shadow
computation never fails. -/
theorem ema_malformed_aborts (opts : ExtraOpt) (conv : Tensor → Tensor)
    (sd : List (PyKey × Value)) (n : Int)
    (hmem : PyKey.intKey n ∈ keysOf sd)
    (hsent : containsKey sd (PyKey.str "___") = false) :
    ∃ e, emaOnlyRunP opts conv sd = Except.error e := by
  unfold emaOnlyRunP
  exact foldlM_emaStepP_error sd opts conv n hsent (keysOf sd) [] hmem

/-- C8 witness: the amended theorem applied to a concrete dict with one
proper key and one integer key. -/
theorem ema_malformed_aborts_witness :
    ∃ e, emaOnlyRunP copyAll (fun t => t)
      [(PyKey.str "u.v", Value.tensor ⟨.float32, [1]⟩),
       (PyKey.intKey 3, Value.tensor ⟨.float32, [2]⟩)]
      = Except.error e :=
  ema_malformed_aborts copyAll (fun t => t)
    [(PyKey.str "u.v", Value.tensor ⟨.float32, [1]⟩),
     (PyKey.intKey 3, Value.tensor ⟨.float32, [2]⟩)] 3
    (by decide) (by decide)

end ModelConverter
